import Mathlib

/-!
# Verification of the Google-Maps scraper core

A shallow embedding of the repository's decoder (`extractor`), navigation
controller (`scraper`) and stealth layer (`stealth.py`), together with
proofs of the specification's testable properties.

Python's `None` / JSON `null` are identified, as in the source: the decoder
represents "absent" by the JSON null value.
-/

namespace GMaps

/-- JSON-like values manipulated by the decoder.  `null` doubles as the
"absent" marker, exactly as Python's `None` does in the source. -/
inductive JVal where
  | null : JVal
  | bool (b : Bool) : JVal
  | num (n : Int) : JVal
  | str (s : String) : JVal
  | arr (xs : List JVal) : JVal
  | obj (kvs : List (String × JVal)) : JVal

/-- A path key: a mapping key or a (possibly negative) sequence index. -/
inductive Key where
  | str (s : String) : Key
  | idx (i : Int) : Key

/-- Association-list lookup used for mapping access (`dict.get`). -/
def lookupKV (s : String) : List (String × JVal) → JVal
  | [] => .null
  | (k, v) :: rest => if k = s then v else lookupKV s rest

/-- Modelled from the spec: `safe_get` (`pathGet`), the generic safe
navigation primitive of the missing `extractor` module.  A string key only
resolves against a mapping, an integer key only against a sequence with a
bounds check under which negative indices are out of bounds; any mismatch
short-circuits to absent (null); with zero keys the container itself is
returned.  Total, hence "never raises". -/
def safe_get (data : JVal) : List Key → JVal
  | [] => data
  | k :: ks =>
    match k, data with
    | .str s, .obj kvs => safe_get (lookupKV s kvs) ks
    | .idx i, .arr xs =>
      if h : 0 ≤ i ∧ i.toNat < xs.length then
        safe_get (xs.get ⟨i.toNat, h.2⟩) ks
      else
        .null
    | _, _ => .null

/-! ## Characters and digits -/

/-- The double-quote character. -/
def qmark : Char := Char.ofNat 34

/-- The backslash character. -/
def bslash : Char := Char.ofNat 92

/-- The opening curly bracket character. -/
def lcurly : Char := Char.ofNat 123

/-- The closing curly bracket character. -/
def rcurly : Char := Char.ofNat 125

/-- The apostrophe character. -/
def apos : Char := Char.ofNat 39

/-- The newline character. -/
def nlChar : Char := Char.ofNat 10

/-- Decimal digit character for a digit value below ten. -/
def digitChar : Nat → Char
  | 0 => '0' | 1 => '1' | 2 => '2' | 3 => '3' | 4 => '4'
  | 5 => '5' | 6 => '6' | 7 => '7' | 8 => '8' | 9 => '9'
  | _ => '0'

/-- Numeric value of a decimal digit character. -/
def digitVal (c : Char) : Nat := c.toNat - 48

/-- Fueled digit-string construction (fuel bounds the digit count). -/
def natCharsAux : Nat → Nat → List Char
  | 0, _ => []
  | f + 1, n =>
    if n < 10 then [digitChar n]
    else natCharsAux f (n / 10) ++ [digitChar (n % 10)]

/-- Decimal digit string of a natural number, most significant first. -/
def natChars (n : Nat) : List Char := natCharsAux (n + 1) n

/-- Decimal digit string of an integer. -/
def intChars (n : Int) : List Char :=
  if n < 0 then '-' :: natChars n.natAbs else natChars n.toNat

/-- Value of a list of decimal digit characters. -/
def digitsVal (ds : List Char) : Nat :=
  ds.foldl (fun a c => a * 10 + digitVal c) 0

/-! ## JSON serialisation (the claims' `encode`) -/

/-- Escape a character for inclusion in a JSON string literal. -/
def escChar (c : Char) : List Char :=
  if c = qmark ∨ c = bslash then [bslash, c] else [c]

/-- Escape a whole character sequence. -/
def escChars (s : List Char) : List Char := s.flatMap escChar

/-- The keyword literal of the JSON null constant. -/
def nullChars : List Char := ['n', 'u', 'l', 'l']

/-- The keyword literal of a JSON boolean constant. -/
def boolChars (b : Bool) : List Char :=
  if b then ['t', 'r', 'u', 'e'] else ['f', 'a', 'l', 's', 'e']

mutual

/-- Serialise a `JVal` to JSON text (as a character list). -/
def encChars : JVal → List Char
  | .null => nullChars
  | .bool b => boolChars b
  | .num n => intChars n
  | .str s => qmark :: escChars s.data ++ [qmark]
  | .arr xs => '[' :: encList xs ++ [']']
  | .obj kvs => lcurly :: encMems kvs ++ [rcurly]

/-- Serialise array elements, comma separated. -/
def encList : List JVal → List Char
  | [] => []
  | [x] => encChars x
  | x :: y :: t => encChars x ++ ',' :: encList (y :: t)

/-- Serialise object members, comma separated. -/
def encMems : List (String × JVal) → List Char
  | [] => []
  | [kv] => encMem kv
  | kv :: kv2 :: t => encMem kv ++ ',' :: encMems (kv2 :: t)

/-- Serialise one object member. -/
def encMem : String × JVal → List Char
  | (k, v) => qmark :: escChars k.data ++ qmark :: ':' :: encChars v

end

/-- Serialise a `JVal` to a JSON `String`. -/
def jsonEncode (v : JVal) : String := String.mk (encChars v)

/-! ## JSON parsing (the model of `json.loads`) -/

/-- Parse the body of a JSON string literal up to its closing quote,
returning the unescaped characters and the remaining input. -/
def parseStr : List Char → Option (List Char × List Char)
  | [] => none
  | c :: cs =>
    if c = qmark then some ([], cs)
    else if c = bslash then
      match cs with
      | [] => none
      | d :: ds => (parseStr ds).map (fun p => (d :: p.1, p.2))
    else (parseStr cs).map (fun p => (c :: p.1, p.2))

/-- Require a literal character sequence at the front of the input and
return the remainder. -/
def expectChars (lits cs : List Char) : Option (List Char) :=
  if lits.isPrefixOf cs then some (cs.drop lits.length) else none

mutual

/-- Fueled recursive-descent JSON value parse. -/
def parseVal : Nat → List Char → Option (JVal × List Char)
  | 0, _ => none
  | _ + 1, [] => none
  | f + 1, c :: cs =>
    if c = 'n' then
      (expectChars ['u', 'l', 'l'] cs).map (fun r => (.null, r))
    else if c = 't' then
      (expectChars ['r', 'u', 'e'] cs).map (fun r => (.bool true, r))
    else if c = 'f' then
      (expectChars ['a', 'l', 's', 'e'] cs).map (fun r => (.bool false, r))
    else if c = qmark then
      (parseStr cs).map (fun p => (.str (String.mk p.1), p.2))
    else if c = '[' then
      if cs.head? = some ']' then some (.arr [], cs.tail)
      else (parseElems f cs).map (fun p => (.arr p.1, p.2))
    else if c = lcurly then
      if cs.head? = some rcurly then some (.obj [], cs.tail)
      else (parseMems f cs).map (fun p => (.obj p.1, p.2))
    else if c = '-' then
      if (cs.span Char.isDigit).1 = [] then none
      else some (.num (-((digitsVal (cs.span Char.isDigit).1 : Nat) : Int)),
        (cs.span Char.isDigit).2)
    else if c.isDigit then
      some (.num ((digitsVal ((c :: cs).span Char.isDigit).1 : Nat) : Int),
        ((c :: cs).span Char.isDigit).2)
    else none

/-- Fueled parse of comma-separated array elements and the closing bracket. -/
def parseElems : Nat → List Char → Option (List JVal × List Char)
  | 0, _ => none
  | f + 1, cs =>
    match parseVal f cs with
    | none => none
    | some (v, r) =>
      match r with
      | [] => none
      | c :: r2 =>
        if c = ']' then some ([v], r2)
        else if c = ',' then (parseElems f r2).map (fun p => (v :: p.1, p.2))
        else none

/-- Fueled parse of comma-separated object members and the closing brace. -/
def parseMems : Nat → List Char → Option (List (String × JVal) × List Char)
  | 0, _ => none
  | f + 1, cs =>
    match cs with
    | [] => none
    | c :: cs2 =>
      if c = qmark then
        match parseStr cs2 with
        | none => none
        | some (k, r) =>
          match r with
          | [] => none
          | c2 :: r2 =>
            if c2 = ':' then
              match parseVal f r2 with
              | none => none
              | some (v, r3) =>
                match r3 with
                | [] => none
                | c3 :: r4 =>
                  if c3 = rcurly then some ([(String.mk k, v)], r4)
                  else if c3 = ',' then
                    (parseMems f r4).map (fun p => ((String.mk k, v) :: p.1, p.2))
                  else none
            else none
      else none

end

/-- Parse a complete JSON document; fails unless all input is consumed. -/
def jsonParse (s : String) : Option JVal :=
  match parseVal (s.length + 1) s.data with
  | some (v, []) => some v
  | _ => none

mutual

/-- Fuel sufficient for `parseVal` on the encoding of a value. -/
def needFuel : JVal → Nat
  | .null | .bool _ | .num _ | .str _ => 1
  | .arr xs => needList xs + 1
  | .obj kvs => needMems kvs + 1

/-- Fuel sufficient for `parseElems` on encoded array elements. -/
def needList : List JVal → Nat
  | [] => 0
  | x :: xs => needFuel x + needList xs + 1

/-- Fuel sufficient for `parseMems` on encoded object members. -/
def needMems : List (String × JVal) → Nat
  | [] => 0
  | (_, v) :: kvs => needFuel v + needMems kvs + 1

end

/-! ## Round-trip lemmas: digits -/

theorem digitChar_isDigit (d : Nat) (hd : d < 10) : (digitChar d).isDigit = true := by
  interval_cases d <;> decide

theorem digitVal_digitChar (d : Nat) (hd : d < 10) : digitVal (digitChar d) = d := by
  interval_cases d <;> decide

theorem natCharsAux_congr : ∀ (n f g : Nat), n < f → n < g →
    natCharsAux f n = natCharsAux g n := by
  intro n
  induction n using Nat.strong_induction_on with
  | _ n ih =>
    intro f g hf hg
    obtain ⟨f', rfl⟩ : ∃ f', f = f' + 1 := ⟨f - 1, by omega⟩
    obtain ⟨g', rfl⟩ : ∃ g', g = g' + 1 := ⟨g - 1, by omega⟩
    by_cases h10 : n < 10
    · simp [natCharsAux, h10]
    · have hdiv : n / 10 < n := Nat.div_lt_self (by omega) (by omega)
      have hrec := ih (n / 10) hdiv f' g' (by omega) (by omega)
      simp [natCharsAux, h10, hrec]

/-- One-step unfolding of `natChars`. -/
theorem natChars_eq (n : Nat) : natChars n =
    if n < 10 then [digitChar n] else natChars (n / 10) ++ [digitChar (n % 10)] := by
  by_cases h10 : n < 10
  · simp [natChars, natCharsAux, h10]
  · have hdiv : n / 10 < n := Nat.div_lt_self (by omega) (by omega)
    have hc := natCharsAux_congr (n / 10) n (n / 10 + 1) (by omega) (by omega)
    simp [natChars, natCharsAux, h10]
    exact hc

theorem natChars_ne_nil (n : Nat) : natChars n ≠ [] := by
  rw [natChars_eq]
  split <;> simp

theorem natChars_digits (n : Nat) : ∀ c ∈ natChars n, c.isDigit = true := by
  induction n using Nat.strong_induction_on with
  | _ n ih =>
    rw [natChars_eq]
    split
    · next h => simpa using digitChar_isDigit n h
    · next h =>
      intro c hc
      rcases List.mem_append.mp hc with h1 | h2
      · exact ih (n / 10) (Nat.div_lt_self (by omega) (by omega)) c h1
      · simpa using (by simpa using h2 : c = digitChar (n % 10)) ▸
          digitChar_isDigit (n % 10) (Nat.mod_lt _ (by omega))

theorem digitsVal_append_single (ds : List Char) (c : Char) :
    digitsVal (ds ++ [c]) = digitsVal ds * 10 + digitVal c := by
  simp [digitsVal, List.foldl_append]

theorem digitsVal_natChars (n : Nat) : digitsVal (natChars n) = n := by
  induction n using Nat.strong_induction_on with
  | _ n ih =>
    rw [natChars_eq]
    split
    · next h => simp [digitsVal, digitVal_digitChar n h]
    · next h =>
      rw [digitsVal_append_single, ih (n / 10) (Nat.div_lt_self (by omega) (by omega)),
        digitVal_digitChar (n % 10) (Nat.mod_lt _ (by omega))]
      omega

/-- Heads that stop a digit scan. -/
def headNotDigit : List Char → Prop
  | [] => True
  | c :: _ => c.isDigit = false

theorem span_digits (ds rest : List Char) (hds : ∀ c ∈ ds, c.isDigit = true)
    (hrest : headNotDigit rest) : (ds ++ rest).span Char.isDigit = (ds, rest) := by
  induction ds with
  | nil =>
    cases rest with
    | nil => rfl
    | cons c t =>
      simp only [headNotDigit] at hrest
      simp [List.span_eq_take_drop, List.takeWhile, List.dropWhile, hrest]
  | cons c t ih =>
    have hc : c.isDigit = true := hds c (by simp)
    have ht : ∀ x ∈ t, x.isDigit = true := fun x hx => hds x (by simp [hx])
    have h2 := ih ht
    rw [List.span_eq_take_drop] at h2 ⊢
    have h3 : List.takeWhile Char.isDigit (t ++ rest) = t := by
      simpa using congrArg Prod.fst h2
    have h4 : List.dropWhile Char.isDigit (t ++ rest) = rest := by
      simpa using congrArg Prod.snd h2
    simp [List.takeWhile, List.dropWhile, hc, h3, h4]

/-! ## Round-trip lemmas: strings -/

theorem parseStr_esc (s : List Char) (rest : List Char) :
    parseStr (escChars s ++ qmark :: rest) = some (s, rest) := by
  induction s with
  | nil =>
    rw [escChars, List.flatMap_nil, List.nil_append, parseStr.eq_def]
    simp
  | cons c t ih =>
    have htail : escChars (c :: t) = escChar c ++ escChars t := by
      simp [escChars]
    by_cases hc : c = qmark ∨ c = bslash
    · have h1 : bslash ≠ qmark := by decide
      rw [htail, escChar, if_pos hc, List.append_assoc, List.cons_append,
        List.cons_append, parseStr.eq_def]
      simp [h1, ih]
    · push_neg at hc
      rw [htail, escChar, if_neg (by tauto), List.append_assoc, List.cons_append,
        parseStr.eq_def]
      simp [hc.1, hc.2, ih]

theorem expectChars_append (lits rest : List Char) :
    expectChars lits (lits ++ rest) = some rest := by
  have h : lits.isPrefixOf (lits ++ rest) = true := by
    rw [List.isPrefixOf_iff_prefix]
    exact List.prefix_append _ _
  simp [expectChars, h, List.drop_left]

/-! ## Round-trip lemmas: heads and rests -/

theorem digit_ne (c d : Char) (hc : c.isDigit = true) (hd : d.isDigit = false) : c ≠ d := by
  intro e
  rw [e, hd] at hc
  exact Bool.false_ne_true hc

theorem natChars_head (n : Nat) :
    ∃ c t, natChars n = c :: t ∧ c.isDigit = true := by
  induction n using Nat.strong_induction_on with
  | _ n ih =>
    rw [natChars_eq]
    split
    · next h => exact ⟨digitChar n, [], rfl, digitChar_isDigit n h⟩
    · next h =>
      obtain ⟨c, t, hct, hc⟩ := ih (n / 10) (Nat.div_lt_self (by omega) (by omega))
      exact ⟨c, t ++ [digitChar (n % 10)], by rw [hct]; rfl, hc⟩

theorem encChars_head (v : JVal) :
    ∃ c t, encChars v = c :: t ∧ c ≠ ']' ∧ c ≠ rcurly := by
  cases v with
  | null => exact ⟨'n', _, rfl, by decide, by decide⟩
  | bool b => cases b with
    | true => exact ⟨'t', _, rfl, by decide, by decide⟩
    | false => exact ⟨'f', _, rfl, by decide, by decide⟩
  | num n =>
    by_cases hn : n < 0
    · exact ⟨'-', natChars n.natAbs, by simp [encChars, intChars, hn], by decide, by decide⟩
    · obtain ⟨c, t, hct, hc⟩ := natChars_head n.toNat
      exact ⟨c, t, by simp [encChars, intChars, hn, hct],
        digit_ne c ']' hc (by decide), digit_ne c rcurly hc (by decide)⟩
  | str s => exact ⟨qmark, _, rfl, by decide, by decide⟩
  | arr xs => exact ⟨'[', _, rfl, by decide, by decide⟩
  | obj kvs => exact ⟨lcurly, _, rfl, by decide, by decide⟩

/-- Input shapes after which a parsed value is recovered exactly: a number
must not be followed directly by another digit. -/
def restOk : JVal → List Char → Prop
  | .num _, rest => headNotDigit rest
  | _, _ => True

theorem restOk_of_head (v : JVal) (c : Char) (r : List Char) (hc : c.isDigit = false) :
    restOk v (c :: r) := by
  cases v <;> simp [restOk, headNotDigit, hc]

theorem restOk_nil (v : JVal) : restOk v [] := by
  cases v <;> simp [restOk, headNotDigit]

theorem encList_cons (x : JVal) (t : List JVal) :
    ∃ s, encList (x :: t) = encChars x ++ s := by
  cases t with
  | nil => exact ⟨[], by simp [encList]⟩
  | cons y t2 => exact ⟨',' :: encList (y :: t2), rfl⟩

/-! ## Round-trip: array elements, object members, values -/

theorem parseElems_enc (xs : List JVal)
    (IH : ∀ x ∈ xs, ∀ f rest, needFuel x ≤ f → restOk x rest →
      parseVal f (encChars x ++ rest) = some (x, rest)) :
    ∀ g rest, xs ≠ [] → needList xs ≤ g →
      parseElems g (encList xs ++ ']' :: rest) = some (xs, rest) := by
  induction xs with
  | nil => intro g rest hne; exact absurd rfl hne
  | cons x t iht =>
    intro g rest _ hg
    have hx : needFuel x + needList t + 1 ≤ g := hg
    obtain ⟨g', rfl⟩ : ∃ g', g = g' + 1 := ⟨g - 1, by omega⟩
    cases t with
    | nil =>
      have hv := IH x (by simp) g' (']' :: rest) (by omega)
        (restOk_of_head x ']' rest (by decide))
      rw [parseElems, encList, hv]
      simp
    | cons y t2 =>
      have hv := IH x (by simp) g'
        (',' :: (encList (y :: t2) ++ ']' :: rest)) (by omega)
        (restOk_of_head x ',' _ (by decide))
      have hrec := iht (fun z hz => IH z (by simp [hz])) g' rest (by simp)
        (by simp [needList] at hx ⊢; omega)
      rw [parseElems]
      have harr : encList (x :: y :: t2) ++ ']' :: rest =
          encChars x ++ (',' :: (encList (y :: t2) ++ ']' :: rest)) := by
        simp [encList]
      rw [harr, hv]
      have hne : (',' : Char) ≠ ']' := by decide
      simp [hne, hrec]

theorem parseMems_enc (kvs : List (String × JVal))
    (IH : ∀ kv ∈ kvs, ∀ f rest, needFuel kv.2 ≤ f → restOk kv.2 rest →
      parseVal f (encChars kv.2 ++ rest) = some (kv.2, rest)) :
    ∀ g rest, kvs ≠ [] → needMems kvs ≤ g →
      parseMems g (encMems kvs ++ rcurly :: rest) = some (kvs, rest) := by
  induction kvs with
  | nil => intro g rest hne; exact absurd rfl hne
  | cons kv t iht =>
    obtain ⟨k, v⟩ := kv
    intro g rest _ hg
    have hx : needFuel v + needMems t + 1 ≤ g := hg
    obtain ⟨g', rfl⟩ : ∃ g', g = g' + 1 := ⟨g - 1, by omega⟩
    have hmk : String.mk k.data = k := rfl
    cases t with
    | nil =>
      have hv := IH (k, v) (by simp) g' (rcurly :: rest) (show needFuel v ≤ g' by omega)
        (restOk_of_head v rcurly rest (by decide))
      rw [parseMems.eq_def]
      have hshape : encMems [(k, v)] ++ rcurly :: rest =
          qmark :: (escChars k.data ++ qmark ::
            (':' :: (encChars v ++ rcurly :: rest))) := by
        simp [encMems, encMem]
      rw [hshape]
      have hstr := parseStr_esc k.data (':' :: (encChars v ++ rcurly :: rest))
      simp only [List.cons_append] at hstr ⊢
      simp [hstr, hv, hmk]
    | cons kv2 t2 =>
      have hv := IH (k, v) (by simp) g'
        (',' :: (encMems (kv2 :: t2) ++ rcurly :: rest)) (show needFuel v ≤ g' by omega)
        (restOk_of_head v ',' _ (by decide))
      have hrec := iht (fun z hz => IH z (by simp [hz])) g' rest (by simp)
        (by simp [needMems] at hx ⊢; omega)
      rw [parseMems.eq_def]
      have hshape : encMems ((k, v) :: kv2 :: t2) ++ rcurly :: rest =
          qmark :: (escChars k.data ++ qmark ::
            (':' :: (encChars v ++ ',' :: (encMems (kv2 :: t2) ++ rcurly :: rest)))) := by
        simp [encMems, encMem]
      rw [hshape]
      have hstr := parseStr_esc k.data
        (':' :: (encChars v ++ ',' :: (encMems (kv2 :: t2) ++ rcurly :: rest)))
      have hne : (',' : Char) ≠ rcurly := by decide
      simp only [List.cons_append] at hstr ⊢
      simp [hstr, hv, hne, hrec, hmk]

theorem parseVal_enc : ∀ (v : JVal) (f : Nat) (rest : List Char),
    needFuel v ≤ f → restOk v rest →
    parseVal f (encChars v ++ rest) = some (v, rest)
  | v, f, rest, hf, hrest => by
    have hf1 : 1 ≤ needFuel v := by
      cases v <;> simp [needFuel]
    obtain ⟨f', rfl⟩ : ∃ f', f = f' + 1 := ⟨f - 1, by omega⟩
    cases v with
    | null =>
      rw [show encChars .null ++ rest = 'n' :: (['u', 'l', 'l'] ++ rest) by rfl,
        parseVal]
      simp only [if_pos rfl, expectChars_append]
      simp
    | bool b =>
      cases b with
      | true =>
        rw [show encChars (.bool true) ++ rest = 't' :: (['r', 'u', 'e'] ++ rest) by rfl,
          parseVal]
        rw [if_neg (by decide : ¬(('t' : Char) = 'n')), if_pos rfl, expectChars_append]
        rfl
      | false =>
        rw [show encChars (.bool false) ++ rest =
          'f' :: (['a', 'l', 's', 'e'] ++ rest) by rfl, parseVal]
        rw [if_neg (by decide : ¬(('f' : Char) = 'n')),
          if_neg (by decide : ¬(('f' : Char) = 't')), if_pos rfl, expectChars_append]
        rfl
    | str s =>
      rw [show encChars (.str s) ++ rest =
        qmark :: (escChars s.data ++ qmark :: rest) by simp [encChars], parseVal]
      have h1 : qmark ≠ 'n' := by decide
      have h2 : qmark ≠ 't' := by decide
      have h3 : qmark ≠ 'f' := by decide
      simp [h1, h2, h3, parseStr_esc]
    | num n =>
      by_cases hn : n < 0
      · have hd := natChars_digits n.natAbs
        have hspan := span_digits (natChars n.natAbs) rest hd hrest
        have hne := natChars_ne_nil n.natAbs
        have hshape : encChars (.num n) ++ rest = '-' :: (natChars n.natAbs ++ rest) := by
          simp [encChars, intChars, hn]
        rw [hshape, parseVal]
        rw [if_neg (by decide : ¬(('-' : Char) = 'n')),
          if_neg (by decide : ¬(('-' : Char) = 't')),
          if_neg (by decide : ¬(('-' : Char) = 'f')),
          if_neg (by decide : ¬('-' = qmark)),
          if_neg (by decide : ¬(('-' : Char) = '[')),
          if_neg (by decide : ¬('-' = lcurly)),
          if_pos rfl, hspan]
        rw [if_neg (by simpa using hne), digitsVal_natChars]
        have hv : -((n.natAbs : Nat) : Int) = n := by omega
        rw [hv]
      · obtain ⟨c, t, hct, hcdig⟩ := natChars_head n.toNat
        have hd := natChars_digits n.toNat
        have hspan := span_digits (natChars n.toNat) rest hd hrest
        have hshape : encChars (.num n) ++ rest = c :: (t ++ rest) := by
          simp [encChars, intChars, hn, hct]
        rw [hshape, parseVal]
        have h1 : c ≠ 'n' := digit_ne c 'n' hcdig (by decide)
        have h2 : c ≠ 't' := digit_ne c 't' hcdig (by decide)
        have h3 : c ≠ 'f' := digit_ne c 'f' hcdig (by decide)
        have h4 : c ≠ qmark := digit_ne c qmark hcdig (by decide)
        have h5 : c ≠ '[' := digit_ne c '[' hcdig (by decide)
        have h6 : c ≠ lcurly := digit_ne c lcurly hcdig (by decide)
        have h7 : c ≠ '-' := digit_ne c '-' hcdig (by decide)
        rw [if_neg h1, if_neg h2, if_neg h3, if_neg h4, if_neg h5, if_neg h6,
          if_neg h7, if_pos hcdig]
        have hcons : c :: (t ++ rest) = natChars n.toNat ++ rest := by
          rw [hct]; rfl
        rw [hcons, hspan, digitsVal_natChars]
        have hv : ((n.toNat : Nat) : Int) = n := by omega
        rw [hv]
    | arr xs =>
      cases xs with
      | nil =>
        rw [show encChars (.arr []) ++ rest = '[' :: (']' :: rest) by rfl, parseVal]
        have h1 : ('[' : Char) ≠ 'n' := by decide
        have h2 : ('[' : Char) ≠ 't' := by decide
        have h3 : ('[' : Char) ≠ 'f' := by decide
        have h4 : ('[' : Char) ≠ qmark := by decide
        simp [h1, h2, h3, h4]
      | cons x t =>
        have IH : ∀ y ∈ x :: t, ∀ g r, needFuel y ≤ g → restOk y r →
            parseVal g (encChars y ++ r) = some (y, r) := by
          intro y hy g r hg hr
          exact parseVal_enc y g r hg hr
        have helems := parseElems_enc (x :: t) IH f' rest (by simp)
          (by simp [needFuel] at hf; omega)
        obtain ⟨c0, t0, hct0, hc1, _⟩ := encChars_head x
        obtain ⟨s0, hs0⟩ := encList_cons x t
        rw [show encChars (.arr (x :: t)) ++ rest =
          '[' :: (encList (x :: t) ++ ']' :: rest) by simp [encChars], parseVal]
        have h1 : ('[' : Char) ≠ 'n' := by decide
        have h2 : ('[' : Char) ≠ 't' := by decide
        have h3 : ('[' : Char) ≠ 'f' := by decide
        have h4 : ('[' : Char) ≠ qmark := by decide
        have hlne : encList (x :: t) = c0 :: (t0 ++ s0) := by
          rw [hs0, hct0]; rfl
        rw [hlne] at helems
        simp only [List.cons_append, List.append_assoc] at helems
        simp [h1, h2, h3, h4, hlne, hc1, helems]
    | obj kvs =>
      cases kvs with
      | nil =>
        rw [show encChars (.obj []) ++ rest = lcurly :: (rcurly :: rest) by rfl, parseVal]
        have h1 : lcurly ≠ 'n' := by decide
        have h2 : lcurly ≠ 't' := by decide
        have h3 : lcurly ≠ 'f' := by decide
        have h4 : lcurly ≠ qmark := by decide
        have h5 : lcurly ≠ '[' := by decide
        simp [h1, h2, h3, h4, h5]
      | cons kv t =>
        have IH : ∀ z ∈ kv :: t, ∀ g r, needFuel z.2 ≤ g → restOk z.2 r →
            parseVal g (encChars z.2 ++ r) = some (z.2, r) := by
          intro z hz g r hg hr
          exact parseVal_enc z.2 g r hg hr
        have hmems := parseMems_enc (kv :: t) IH f' rest (by simp)
          (by simp [needFuel] at hf; omega)
        rw [show encChars (.obj (kv :: t)) ++ rest =
          lcurly :: (encMems (kv :: t) ++ rcurly :: rest) by simp [encChars], parseVal]
        have h1 : lcurly ≠ 'n' := by decide
        have h2 : lcurly ≠ 't' := by decide
        have h3 : lcurly ≠ 'f' := by decide
        have h4 : lcurly ≠ qmark := by decide
        have h5 : lcurly ≠ '[' := by decide
        have hqr : qmark ≠ rcurly := by decide
        obtain ⟨s1, hs1⟩ : ∃ s1, encMems (kv :: t) = qmark :: s1 := by
          obtain ⟨k, v⟩ := kv
          cases t with
          | nil =>
            exact ⟨escChars k.data ++ qmark :: ':' :: encChars v, by simp [encMems, encMem]⟩
          | cons kv2 t2 =>
            exact ⟨escChars k.data ++ qmark :: ':' :: encChars v ++ ',' :: encMems (kv2 :: t2),
              by simp [encMems, encMem]⟩
        rw [hs1] at hmems
        simp only [List.cons_append, List.append_assoc] at hmems
        simp [h1, h2, h3, h4, h5, hs1, hqr, hmems]
termination_by v => sizeOf v
decreasing_by
  · have h9 := List.sizeOf_lt_of_mem hy
    subst_vars
    simp only [JVal.arr.sizeOf_spec]
    omega
  · have h9 := List.sizeOf_lt_of_mem hz
    subst_vars
    have h10 : sizeOf z.2 ≤ sizeOf z := by
      obtain ⟨a, b⟩ := z
      simp only [Prod.mk.sizeOf_spec]
      omega
    simp only [JVal.obj.sizeOf_spec]
    omega

/-! ## Fuel bounds and the full round trip -/

theorem needList_le (xs : List JVal)
    (IH : ∀ x ∈ xs, needFuel x ≤ (encChars x).length) :
    needList xs ≤ (encList xs).length + 1 := by
  induction xs with
  | nil => simp [needList]
  | cons x t iht =>
    cases t with
    | nil =>
      have := IH x (by simp)
      simp only [needList, encList]
      omega
    | cons y t2 =>
      have h1 := IH x (by simp)
      have h2 := iht (fun z hz => IH z (by simp [hz]))
      simp only [needList, encList, List.length_append, List.length_cons] at h2 ⊢
      omega

theorem needMems_le (kvs : List (String × JVal))
    (IH : ∀ kv ∈ kvs, needFuel kv.2 ≤ (encChars kv.2).length) :
    needMems kvs ≤ (encMems kvs).length + 1 := by
  induction kvs with
  | nil => simp [needMems]
  | cons kv t iht =>
    obtain ⟨k, v⟩ := kv
    have hmem : (encMem (k, v)).length = (escChars k.data).length + 3 + (encChars v).length := by
      simp [encMem]
      omega
    cases t with
    | nil =>
      have h1 := IH (k, v) (by simp)
      simp only [needMems, encMems] at h1 ⊢
      omega
    | cons kv2 t2 =>
      have h1 := IH (k, v) (by simp)
      have h2 := iht (fun z hz => IH z (by simp [hz]))
      simp only [needMems, encMems, List.length_append, List.length_cons] at h1 h2 ⊢
      omega

theorem needFuel_le : ∀ (v : JVal), needFuel v ≤ (encChars v).length
  | .null => by simp [needFuel, encChars, nullChars]
  | .bool b => by cases b <;> simp [needFuel, encChars, boolChars]
  | .num n => by
    have h1 : natChars n.natAbs ≠ [] := natChars_ne_nil _
    have h2 : natChars n.toNat ≠ [] := natChars_ne_nil _
    have h3 : 1 ≤ (natChars n.natAbs).length := List.length_pos.mpr h1
    have h4 : 1 ≤ (natChars n.toNat).length := List.length_pos.mpr h2
    by_cases hn : n < 0 <;> simp [needFuel, encChars, intChars, hn] <;> omega
  | .str s => by simp [needFuel, encChars]
  | .arr xs => by
    have IH : ∀ x ∈ xs, needFuel x ≤ (encChars x).length := by
      intro x hx
      exact needFuel_le x
    have h5 := needList_le xs IH
    simp only [needFuel, encChars, List.length_cons, List.length_append]
    omega
  | .obj kvs => by
    have IH : ∀ kv ∈ kvs, needFuel kv.2 ≤ (encChars kv.2).length := by
      intro kv hkv
      exact needFuel_le kv.2
    have h5 := needMems_le kvs IH
    simp only [needFuel, encChars, List.length_cons, List.length_append]
    omega
termination_by v => sizeOf v
decreasing_by
  · have h9 := List.sizeOf_lt_of_mem hx
    simp only [JVal.arr.sizeOf_spec]
    omega
  · have h9 := List.sizeOf_lt_of_mem hkv
    have h10 : sizeOf kv.2 ≤ sizeOf kv := by
      obtain ⟨a, b⟩ := kv
      simp only [Prod.mk.sizeOf_spec]
      omega
    simp only [JVal.obj.sizeOf_spec]
    omega

/-- The encoder/parser round trip: parsing an encoded value recovers it. -/
theorem jsonParse_jsonEncode (v : JVal) : jsonParse (jsonEncode v) = some v := by
  have h := parseVal_enc v ((encChars v).length + 1) []
    (by have := needFuel_le v; omega) (restOk_nil v)
  rw [List.append_nil] at h
  unfold jsonParse jsonEncode
  have hd : (String.mk (encChars v)).data = encChars v := rfl
  have hl : (String.mk (encChars v)).length = (encChars v).length := rfl
  rw [hl, hd, h]

/-! ## Decoder: embedded-state extraction -/

/-- The marker opening the embedded bootstrap-state literal. -/
def startMarker : List Char := (";window.APP_INITIALIZATION_STATE=").data

/-- The marker closing the embedded bootstrap-state literal. -/
def endMarker : List Char := (";window.APP_FLAGS").data

/-- Drop everything up to and including the first occurrence of `marker`;
absent when the marker never occurs. -/
def dropAfterFirst (marker : List Char) : List Char → Option (List Char)
  | [] => if marker.isPrefixOf [] then some [] else none
  | c :: t =>
    if marker.isPrefixOf (c :: t) then some ((c :: t).drop marker.length)
    else dropAfterFirst marker t

/-- The characters strictly before the first occurrence of `marker`;
absent when the marker never occurs. -/
def takeUntil (marker : List Char) : List Char → Option (List Char)
  | [] => if marker.isPrefixOf [] then some [] else none
  | c :: t =>
    if marker.isPrefixOf (c :: t) then some []
    else (takeUntil marker t).map (fun r => c :: r)

/-- Modelled from the spec: `extract_initial_json` (`extractEmbeddedState`)
of the missing `extractor` module.  Locates the fixed marker pair bracketing
the serialized literal and returns the bracketed substring only if its
first character is an opening square or curly bracket; otherwise absent. -/
def extract_initial_json (html : String) : Option String :=
  match dropAfterFirst startMarker html.data with
  | none => none
  | some rest =>
    match takeUntil endMarker rest with
    | none => none
    | some body =>
      match body with
      | [] => none
      | c :: _ => if c = '[' ∨ c = lcurly then some (String.mk body) else none

/-- The five-character anti-parsing guard that precedes the nested
serialized payload. -/
def guardChars : List Char := [')', ']', rcurly, apos, nlChar]

/-- Modelled from the spec: `parse_json_data` (`decodeEnvelope`) of the
missing `extractor` module.  Parses the envelope, requires a sequence whose
index `[3][6]` holds the candidate; a sequence candidate is the PlaceBlob
itself, a string candidate must carry the five-character guard and is
re-parsed, yielding its 7th element.  Every mismatch yields absent (null). -/
def parse_json_data (o : Option String) : JVal :=
  match o with
  | none => .null
  | some s =>
    match jsonParse s with
    | none => .null
    | some v =>
      match safe_get v [.idx 3, .idx 6] with
      | .arr xs => .arr xs
      | .str t =>
        if guardChars.isPrefixOf t.data then
          match jsonParse (String.mk (t.data.drop guardChars.length)) with
          | none => .null
          | some w => safe_get w [.idx 6]
        else .null
      | _ => .null

/-! ## Decoder: phone search -/

/-- The fixed call-icon marker substring anchoring the phone field. -/
def PHONE_MARKER : List Char := ("call_googblue").data

/-- Substring containment test. -/
def containsSub (needle hay : List Char) : Bool := decide (needle <:+: hay)

/-- Strip every non-digit character (this drops a leading plus sign). -/
def stripNonDigits (s : String) : String := String.mk (s.data.filter Char.isDigit)

/-- Is this node a string containing the call-icon marker? -/
def isMarkerStr : JVal → Bool
  | .str s => containsSub PHONE_MARKER s.data
  | _ => false

/-- Is this node a string containing at least one digit? -/
def isDigitCand : JVal → Bool
  | .str s => s.data.any Char.isDigit
  | _ => false

/-- The text payload of a string node (unreachable default otherwise). -/
def candText : JVal → String
  | .str s => s
  | _ => ""

/-- Scan one sequence for an adjacent marker/candidate pair and return the
digit-stripped candidate of the first hit. -/
def scanPairs : List JVal → Option String
  | x :: y :: t =>
    if isMarkerStr x && isDigitCand y then some (stripNonDigits (candText y))
    else scanPairs (y :: t)
  | _ => none

/-- First defined result of `g` over a list, in order. -/
def firstSome (g : JVal → Option String) : List JVal → Option String
  | [] => none
  | x :: t =>
    match g x with
    | some s => some s
    | none => firstSome g t

/-- First defined result of `g` over the values of an association list. -/
def firstSomeKV (g : JVal → Option String) : List (String × JVal) → Option String
  | [] => none
  | (_, v) :: t =>
    match g v with
    | some s => some s
    | none => firstSomeKV g t

/-- Modelled from the spec: `_find_phone_recursively` (`findPhone`) of the
missing `extractor` module.  Depth-first walk over the closed
sequence/mapping/scalar variant; a marker/value pair with a digit-bearing
string value yields that string with every non-digit stripped; recursion
depth is bounded by the fuel. -/
def find_phone_recursively : Nat → JVal → Option String
  | 0, _ => none
  | f + 1, node =>
    match node with
    | .arr xs =>
      match scanPairs xs with
      | some s => some s
      | none => firstSome (find_phone_recursively f) xs
    | .obj kvs => firstSomeKV (find_phone_recursively f) kvs
    | _ => none

/-- The implementation-defined recursion cap of the phone search. -/
def PHONE_SEARCH_DEPTH : Nat := 50

/-- Modelled from the spec: `get_phone_number`, the phone accessor. -/
def get_phone_number (blob : JVal) : Option String :=
  find_phone_recursively (PHONE_SEARCH_DEPTH + 1) blob

/-- Does one sequence contain an adjacent marker/candidate pair?  (The
specification's reachability condition at one level.) -/
def pairExists : List JVal → Bool
  | x :: y :: t => (isMarkerStr x && isDigitCand y) || pairExists (y :: t)
  | _ => false

/-- The specification's reachability condition: some sequence reachable
within the depth bound contains a marker/value pair whose value is a string
bearing a digit. -/
def hasMarkerPair : Nat → JVal → Bool
  | 0, _ => false
  | f + 1, node =>
    match node with
    | .arr xs => pairExists xs || xs.any (fun x => hasMarkerPair f x)
    | .obj kvs => kvs.any (fun kv => hasMarkerPair f kv.2)
    | _ => false

/-! ## Decoder: field accessors and the place record -/

/-- Is a value the absent marker? -/
def isNull : JVal → Bool
  | .null => true
  | _ => false

/-- Modelled from the spec: the name accessor, offset 11. -/
def get_main_name (blob : JVal) : JVal := safe_get blob [.idx 11]

/-- Modelled from the spec: the place-id accessor, offset 10. -/
def get_place_id (blob : JVal) : JVal := safe_get blob [.idx 10]

/-- Modelled from the spec: the rating accessor, offsets 4, 7 (zero is a
valid present value). -/
def get_rating (blob : JVal) : JVal := safe_get blob [.idx 4, .idx 7]

/-- Modelled from the spec: the review-count accessor, offsets 4, 8. -/
def get_reviews_count (blob : JVal) : JVal := safe_get blob [.idx 4, .idx 8]

/-- Modelled from the spec: the website accessor, first element of the
sequence at offset 7. -/
def get_website (blob : JVal) : JVal := safe_get blob [.idx 7, .idx 0]

/-- Modelled from the spec: the categories accessor, offset 13 verbatim
(an empty sequence is present). -/
def get_categories (blob : JVal) : JVal := safe_get blob [.idx 13]

/-- Modelled from the spec: the tentative best-effort thumbnail lookup. -/
def get_thumbnail (blob : JVal) : JVal :=
  safe_get blob [.idx 14, .idx 0, .idx 1, .idx 6, .idx 0]

/-- Modelled from the spec: the coordinates accessor, offsets 9,2 and 9,3;
present only when both components are present. -/
def get_gps_coordinates (blob : JVal) : Option (JVal × JVal) :=
  match safe_get blob [.idx 9, .idx 2], safe_get blob [.idx 9, .idx 3] with
  | .null, _ => none
  | _, .null => none
  | la, lo => some (la, lo)

/-- Modelled from the spec: the address accessor; the truthy elements of
the sequence at offset 2, joined with a comma and space; absent when no
truthy element remains. -/
def get_complete_address (blob : JVal) : Option String :=
  match safe_get blob [.idx 2] with
  | .arr xs =>
    let parts := xs.filterMap (fun v =>
      match v with
      | .str s => if s = "" then none else some s
      | _ => none)
    if parts = [] then none else some (String.intercalate ", " parts)
  | _ => none

/-- The sparse record of optional listing fields produced by the decoder
(`link` is attached later by the navigation controller). -/
structure PlaceRecord where
  name : JVal
  place_id : JVal
  address : Option String
  phone : Option String
  website : JVal
  rating : JVal
  reviews_count : JVal
  categories : JVal
  coordinates : Option (JVal × JVal)
  thumbnail : JVal

/-- Run every accessor over a blob. -/
def buildRecord (blob : JVal) : PlaceRecord :=
  { name := get_main_name blob
    place_id := get_place_id blob
    address := get_complete_address blob
    phone := get_phone_number blob
    website := get_website blob
    rating := get_rating blob
    reviews_count := get_reviews_count blob
    categories := get_categories blob
    coordinates := get_gps_coordinates blob
    thumbnail := get_thumbnail blob }

/-- Does a record carry no present field at all? -/
def recordEmpty (r : PlaceRecord) : Bool :=
  isNull r.name && isNull r.place_id && r.address.isNone && r.phone.isNone &&
    isNull r.website && isNull r.rating && isNull r.reviews_count &&
    isNull r.categories && r.coordinates.isNone && isNull r.thumbnail

/-- The blob decoded from a page, absent (null) when any stage fails. -/
def decodedBlob (html : String) : JVal :=
  parse_json_data (extract_initial_json html)

/-- Modelled from the spec: `extract_place_data` (`extractPlaceRecord`) of
the missing `extractor` module.  Composes extraction, decoding and every
accessor; emits a record only when at least one field is present. -/
def extract_place_data (html : String) : Option PlaceRecord :=
  match decodedBlob html with
  | .null => none
  | b =>
    let r := buildRecord b
    if recordEmpty r then none else some r

/-! ## Navigation controller (scraper model) -/

/-- Outcome of a navigation step. -/
inductive NavResult where
  | ok : NavResult
  | timeout : NavResult
  | failure : NavResult
deriving DecidableEq

/-- One observation of the results feed during the scroll loop. -/
structure ScrollRound where
  links : List String
  linksOk : Bool
  endMarker : Bool

/-- The abstract browser-automation capability driving one scrape call,
including every injectable failure. -/
structure ScrapeEnv where
  newPageOk : Bool
  navResult : NavResult
  isSinglePlace : Bool
  finalUrl : String
  searchHtml : String
  feedFound : Bool
  rounds : Nat → ScrollRound
  scrollFuel : Nat
  placeNavOk : String → Bool
  placeHtml : String → String

/-- Consecutive no-progress iterations after which the scroll loop halts. -/
def MAX_SCROLL_ATTEMPTS_WITHOUT_NEW_LINKS : Nat := 5

/-- The newly discovered links of one round: visible links not yet
collected, deduplicated, order preserved. -/
def newLinks (seen : List String) : List String → List String
  | [] => []
  | l :: ls => if l ∈ seen then newLinks seen ls else l :: newLinks (seen ++ [l]) ls

/-- Has the cap been reached? -/
def capReached (maxP : Option Nat) (n : Nat) : Bool :=
  match maxP with
  | some m => decide (m ≤ n)
  | none => false

/-- Cap the fresh links at the remaining budget, when a cap is given. -/
def capTake (maxP : Option Nat) (collected : Nat) (fresh : List String) : List String :=
  match maxP with
  | some m => fresh.take (m - collected)
  | none => fresh

theorem capTake_nil (maxP : Option Nat) (n : Nat) : capTake maxP n [] = [] := by
  cases maxP <;> simp [capTake]

/-- Modelled from the spec: the scroll-collection loop of the missing
`scraper` module.  Each iteration reads the visible links (a read failure
counts as zero links), appends the new ones capped at `maxP`, and stops on
cap, on the end-of-list marker, or after five consecutive iterations
without new links.  Returns the collected links and the number of
iterations executed (`fuel` bounds the iteration count). -/
def scrollLoop (env : ScrapeEnv) (maxP : Option Nat) :
    Nat → Nat → Nat → List String → List String × Nat
  | 0, _, _, links => (links, 0)
  | fuel + 1, k, attempts, links =>
    let round := env.rounds k
    let visible := if round.linksOk then round.links else []
    let fresh := newLinks links visible
    let fresh2 := capTake maxP links.length fresh
    let links2 := links ++ fresh2
    if capReached maxP links2.length then (links2, 1)
    else if round.endMarker then (links2, 1)
    else if fresh.isEmpty then
      if MAX_SCROLL_ATTEMPTS_WITHOUT_NEW_LINKS ≤ attempts + 1 then (links2, 1)
      else
        let r := scrollLoop env maxP fuel (k + 1) (attempts + 1) links2
        (r.1, r.2 + 1)
    else
      let r := scrollLoop env maxP fuel (k + 1) 0 links2
      (r.1, r.2 + 1)

/-- Modelled from the spec: per-place extraction; a navigation failure or a
decode failure silently skips the link, a success attaches the link. -/
def visitPlace (env : ScrapeEnv) (link : String) : Option (PlaceRecord × String) :=
  if env.placeNavOk link then
    (extract_place_data (env.placeHtml link)).map (fun r => (r, link))
  else none

/-- Modelled from the spec: `scrape_google_maps` (`runScrape`) of the
missing `scraper` module.  Returns the ordered record list together with
the number of times the browser session is released; every failure path
degrades to an empty list and still releases the session exactly once. -/
def scrape_google_maps (env : ScrapeEnv) (query : String) (max_places : Option Nat) :
    List (PlaceRecord × String) × Nat :=
  if env.newPageOk = false then ([], 1)
  else
    match env.navResult with
    | .timeout => ([], 1)
    | .failure => ([], 1)
    | .ok =>
      if env.isSinglePlace then
        match extract_place_data env.searchHtml with
        | some r => ([(r, env.finalUrl)], 1)
        | none => ([], 1)
      else if env.feedFound = false then ([], 1)
      else
        let collected := (scrollLoop env max_places env.scrollFuel 0 0 []).1
        (collected.filterMap (visitPlace env), 1)

/-! ## Stealth layer (from `stealth.py`) -/

/-- The init scripts injected by the stealth patches; the hardware values
of `randomizeNav` are drawn from the randomness source. -/
inductive InitScript where
  | hideWebdriver : InitScript
  | hideChromeDriver : InitScript
  | randomizeNav (cores mem : Nat) : InitScript
  | addPlugins : InitScript
  | hideAutoInd : InitScript
  | setPerms : InitScript
deriving DecidableEq

/-- A page as the stealth layer sees it: the list of injected init
scripts, in injection order. -/
structure StealthPage where
  initScripts : List InitScript
deriving DecidableEq

/-- The six scripts one call of `apply_stealth_patches` injects, in
order. -/
def patchBatch (cores mem : Nat) : List InitScript :=
  [.hideWebdriver, .hideChromeDriver, .randomizeNav cores mem,
   .addPlugins, .hideAutoInd, .setPerms]

/-- `apply_stealth_patches` from `stealth.py`: injects the six
anti-detection init scripts into the page, with the drawn hardware values
`cores` and `mem`. -/
def apply_stealth_patches (cores mem : Nat) (p : StealthPage) : StealthPage :=
  { initScripts := p.initScripts ++ patchBatch cores mem }

/-- The browser properties the injected scripts force. -/
structure Fingerprint where
  webdriverHidden : Bool
  toolingMarkersRemoved : Bool
  hardwareConcurrency : Option Nat
  deviceMemory : Option Nat
  platform : Option String
  vendor : Option String
  pluginCount : Nat
  mimeTypeCount : Nat
  permissionsPatched : Bool
  chromeAppMocked : Bool
deriving DecidableEq

/-- The fingerprint of an unpatched page. -/
def initialFingerprint : Fingerprint :=
  { webdriverHidden := false, toolingMarkersRemoved := false,
    hardwareConcurrency := none, deviceMemory := none, platform := none,
    vendor := none, pluginCount := 0, mimeTypeCount := 0,
    permissionsPatched := false, chromeAppMocked := false }

/-- Effect of executing one init script on the fingerprint, mirroring the
scripts in `stealth.py`. -/
def applyScript (fp : Fingerprint) : InitScript → Fingerprint
  | .hideWebdriver => { fp with webdriverHidden := true }
  | .hideChromeDriver => { fp with webdriverHidden := true, toolingMarkersRemoved := true }
  | .randomizeNav c m =>
    { fp with
      hardwareConcurrency := some c
      deviceMemory := some m
      platform := some "Win32"
      vendor := some "Google Inc." }
  | .addPlugins => { fp with pluginCount := 3, mimeTypeCount := 3 }
  | .hideAutoInd => { fp with permissionsPatched := true, chromeAppMocked := true }
  | .setPerms => { fp with permissionsPatched := true }

/-- The fingerprint obtained by executing the page's init scripts in
order. -/
def effectiveFingerprint (p : StealthPage) : Fingerprint :=
  p.initScripts.foldl applyScript initialFingerprint

/-- Lower-case a string, as Python's `str.lower` does for ASCII. -/
def toLowerStr (s : String) : String := String.mk (s.data.map Char.toLower)

/-- The detection signal written with an apostrophe. -/
def verifySignal : String := "verify you" ++ String.mk [apos] ++ "re human"

/-- The detection vocabulary of `is_detection_page` in `stealth.py`. -/
def detection_signals : List String :=
  ["captcha", "unusual traffic", "automated queries", "robot",
   "suspicious activity", verifySignal, "security check"]

/-- `is_detection_page` from `stealth.py`: case-insensitive substring
classification of the page content against the fixed vocabulary. -/
def is_detection_page (page_content : String) : Bool :=
  detection_signals.any (fun sig => containsSub sig.data (toLowerStr page_content).data)

/-- `check_if_detected` from `stealth.py`: fetch the page content and
classify it; if content retrieval fails, report "not detected". -/
def check_if_detected (fetch : Except String String) : Bool :=
  match fetch with
  | .ok content => is_detection_page content
  | .error _ => false

/-- One keystroke sent to the page. -/
inductive Keystroke where
  | char (c : Char) : Keystroke
  | backspace : Keystroke
deriving DecidableEq

/-- The keystrokes `human_like_typing` in `stealth.py` emits from
position `i` on: each text character, followed — on a typo draw — by one
wrong character and one Backspace before the next text character. -/
def typedKeys (typo : Nat → Bool) (wrong : Nat → Char) : Nat → List Char → List Keystroke
  | _, [] => []
  | i, c :: cs =>
    .char c :: ((if typo i then [.char (wrong i), .backspace] else []) ++
      typedKeys typo wrong (i + 1) cs)

/-- `human_like_typing` from `stealth.py`, as the keystroke sequence it
emits for a text under a fixed outcome of the randomness source. -/
def human_like_typing (typo : Nat → Bool) (wrong : Nat → Char) (text : List Char) :
    List Keystroke :=
  typedKeys typo wrong 0 text

/-- Effect of one keystroke on an input field's content. -/
def keyStep (acc : List Char) : Keystroke → List Char
  | .char c => acc ++ [c]
  | .backspace => acc.dropLast

/-- The net content an input field holds after a keystroke sequence. -/
def netText (keys : List Keystroke) : List Char :=
  keys.foldl keyStep []

/-! ## Claim theorems -/

/-- C5: for every container value (mapping, sequence, scalar, or absent)
and every key sequence, `safe_get` returns a value (it is total, so it
never raises): a string key resolves only against a mapping, an integer
key only against a sequence with a bounds check under which negative
indices and too-large indices are out of bounds (absent), any mismatch
short-circuits to absent, and with zero keys the container itself is
returned. -/
theorem safe_get_total_and_safe :
    (∀ data : JVal, safe_get data [] = data) ∧
    (∀ (l : List JVal) (s : String) (ks : List Key),
      safe_get (.arr l) (.str s :: ks) = .null) ∧
    (∀ (kvs : List (String × JVal)) (i : Int) (ks : List Key),
      safe_get (.obj kvs) (.idx i :: ks) = .null) ∧
    (∀ (l : List JVal) (n : Nat) (ks : List Key),
      safe_get (.arr l) (.idx (Int.negSucc n) :: ks) = .null) ∧
    (∀ (l : List JVal) (n : Nat) (ks : List Key),
      safe_get (.arr l) (.idx (Int.ofNat (l.length + n)) :: ks) = .null) ∧
    (∀ (l1 : List JVal) (x : JVal) (l2 : List JVal) (ks : List Key),
      safe_get (.arr (l1 ++ x :: l2)) (.idx (Int.ofNat l1.length) :: ks) = safe_get x ks) ∧
    (∀ (kvs : List (String × JVal)) (s : String) (ks : List Key),
      safe_get (.obj kvs) (.str s :: ks) = safe_get (lookupKV s kvs) ks) ∧
    (∀ (k : Key) (ks : List Key) (n : Int) (s : String) (b : Bool),
      safe_get .null (k :: ks) = .null ∧ safe_get (.bool b) (k :: ks) = .null ∧
      safe_get (.num n) (k :: ks) = .null ∧ safe_get (.str s) (k :: ks) = .null) := by
  refine ⟨fun _ => rfl, fun _ _ _ => rfl, fun kvs i ks => by cases i <;> rfl,
    ?_, ?_, ?_, fun _ _ _ => rfl, fun k ks n s b => ?_⟩
  · intro l n ks
    rw [safe_get]
    rw [dif_neg]
    simp
  · intro l n ks
    rw [safe_get]
    rw [dif_neg]
    intro h
    have h2 := h.2
    simp at h2
    omega
  · intro l1 x l2 ks
    rw [safe_get]
    have h0 : (0 : Int) ≤ Int.ofNat l1.length := Int.ofNat_nonneg _
    have hlen : (Int.ofNat l1.length).toNat < (l1 ++ x :: l2).length := by
      have he : (Int.ofNat l1.length).toNat = l1.length := rfl
      rw [he, List.length_append, List.length_cons]
      omega
    rw [dif_pos ⟨h0, hlen⟩]
    congr 1
    have hidx : (Int.ofNat l1.length).toNat = l1.length := rfl
    simp only [List.get_eq_getElem, hidx]
    exact List.getElem_of_append rfl rfl
  · exact ⟨by cases k <;> rfl, by cases k <;> rfl, by cases k <;> rfl, by cases k <;> rfl⟩

/-- C9: `check_if_detected` is total (never raises); a successful content
fetch is classified by `is_detection_page` exactly, and a failed fetch
reports "not detected". -/
theorem check_if_detected_spec :
    (∀ content : String, check_if_detected (.ok content) = is_detection_page content) ∧
    (∀ e : String, check_if_detected (.error e) = false) :=
  ⟨fun _ => rfl, fun _ => rfl⟩

theorem netText_typedKeys (typo : Nat → Bool) (wrong : Nat → Char) :
    ∀ (cs : List Char) (i : Nat) (acc : List Char),
      (typedKeys typo wrong i cs).foldl keyStep acc = acc ++ cs := by
  intro cs
  induction cs with
  | nil => intro i acc; simp [typedKeys]
  | cons c t ih =>
    intro i acc
    by_cases ht : typo i
    · simp only [typedKeys, ht, if_pos, List.foldl_cons, List.foldl_append]
      rw [show keyStep acc (.char c) = acc ++ [c] from rfl]
      simp only [List.foldl_cons, List.foldl_nil]
      rw [show keyStep (acc ++ [c]) (.char (wrong i)) = (acc ++ [c]) ++ [wrong i] from rfl,
        show keyStep ((acc ++ [c]) ++ [wrong i]) .backspace =
          ((acc ++ [c]) ++ [wrong i]).dropLast from rfl,
        List.dropLast_concat, ih (i + 1) (acc ++ [c])]
      simp
    · rw [typedKeys, if_neg (by simpa using ht)]
      simp only [List.nil_append, List.foldl_cons]
      rw [show keyStep acc (.char c) = acc ++ [c] from rfl, ih (i + 1) (acc ++ [c])]
      simp

/-- C10: for every input text and every outcome of the randomness source,
the keystroke sequence emitted by `human_like_typing` reduces to exactly
the input text: every injected wrong character is cancelled by the
Backspace that immediately follows it, so the net typed content equals the
text. -/
theorem human_like_typing_net (typo : Nat → Bool) (wrong : Nat → Char)
    (text : List Char) : netText (human_like_typing typo wrong text) = text := by
  rw [netText, human_like_typing, netText_typedKeys]
  rfl

/-- C8 counterexample: applying `apply_stealth_patches` twice does not
leave the page in the state a single application produces — the six init
scripts are injected a second time. -/
theorem apply_stealth_patches_not_idempotent :
    apply_stealth_patches 4 8 (apply_stealth_patches 4 8 ⟨[]⟩) ≠
      apply_stealth_patches 4 8 ⟨[]⟩ := by
  decide

/-- C8 (amended): `apply_stealth_patches` is idempotent at the level of
the effective fingerprint: re-applying the patches with the same drawn
hardware values re-injects the scripts but leaves the fingerprint forced
by the accumulated scripts unchanged. -/
theorem apply_stealth_patches_fingerprint_idempotent
    (p : StealthPage) (cores mem : Nat) :
    effectiveFingerprint
        (apply_stealth_patches cores mem (apply_stealth_patches cores mem p)) =
      effectiveFingerprint (apply_stealth_patches cores mem p) := by
  have hbatch : ∀ fp : Fingerprint, (patchBatch cores mem).foldl applyScript fp =
      { webdriverHidden := true, toolingMarkersRemoved := true,
        hardwareConcurrency := some cores, deviceMemory := some mem,
        platform := some "Win32", vendor := some "Google Inc.",
        pluginCount := 3, mimeTypeCount := 3, permissionsPatched := true,
        chromeAppMocked := true } := fun fp => rfl
  simp [effectiveFingerprint, apply_stealth_patches, List.foldl_append, hbatch]

theorem isPrefixOf_append_self (l r : List Char) : l.isPrefixOf (l ++ r) = true := by
  rw [List.isPrefixOf_iff_prefix]
  exact List.prefix_append _ _

/-- Six nulls padding positions 0 to 5. -/
def sixNulls : List JVal := [.null, .null, .null, .null, .null, .null]

/-- The claims' `encode`, direct form: the PlaceBlob sits at index
`[3][6]` of the envelope. -/
def encodeDirect (B : JVal) : String :=
  jsonEncode (.arr [.null, .null, .null, .arr (sixNulls ++ [B])])

/-- The claims' `encode`, nested form: index `[3][6]` holds the
guard-prefixed serialisation of a seven-element sequence whose element 6
is the PlaceBlob. -/
def encodeNested (B : JVal) : String :=
  jsonEncode (.arr [.null, .null, .null, .arr (sixNulls ++
    [.str (String.mk (guardChars ++ (jsonEncode (.arr (sixNulls ++ [B]))).data))])])

theorem safe_get_env36 (inner : JVal) :
    safe_get (.arr [.null, .null, .null, inner]) [.idx 3, .idx 6] =
      safe_get inner [.idx 6] := rfl

theorem safe_get_six (B : JVal) : safe_get (.arr (sixNulls ++ [B])) [.idx 6] = B := rfl

/-- C4: decoding recovers every PlaceBlob from both encodings — the blob
placed directly at index `[3][6]`, and the guard-prefixed nested string
form. -/
theorem parse_json_data_roundtrip (xs : List JVal) :
    parse_json_data (some (encodeDirect (.arr xs))) = .arr xs ∧
    parse_json_data (some (encodeNested (.arr xs))) = .arr xs := by
  constructor
  · simp only [parse_json_data, encodeDirect, jsonParse_jsonEncode]
    rw [safe_get_env36, safe_get_six]
  · simp only [parse_json_data, encodeNested, jsonParse_jsonEncode]
    rw [safe_get_env36, safe_get_six]
    have hdata : (String.mk (guardChars ++
        (jsonEncode (.arr (sixNulls ++ [.arr xs]))).data)).data =
        guardChars ++ (jsonEncode (.arr (sixNulls ++ [.arr xs]))).data := rfl
    simp only [hdata, isPrefixOf_append_self, if_true, List.drop_left]
    have hmk : String.mk (jsonEncode (.arr (sixNulls ++ [.arr xs]))).data =
        jsonEncode (.arr (sixNulls ++ [.arr xs])) := rfl
    rw [hmk, jsonParse_jsonEncode]
    exact safe_get_six (.arr xs)

/-- Every branch of the scrape releases the session exactly once. -/
theorem scrape_snd_eq_one (env : ScrapeEnv) (q : String) (mp : Option Nat) :
    (scrape_google_maps env q mp).2 = 1 := by
  unfold scrape_google_maps
  split
  · rfl
  · split
    · rfl
    · rfl
    · split
      · split <;> rfl
      · split
        · rfl
        · rfl

theorem scrape_shape (env : ScrapeEnv) (q : String) (mp : Option Nat) :
    scrape_google_maps env q mp = ((scrape_google_maps env q mp).1, 1) := by
  have h := scrape_snd_eq_one env q mp
  exact Prod.ext rfl h

/-- The empty page decodes to nothing. -/
theorem extract_place_data_empty : extract_place_data "" = none := rfl

/-- C1: the scrape returns a list and never propagates an exception; under
each injected internal failure — page-creation failure, navigation timeout,
navigation error, decode failure on a single-result page, results-feed
(selector) timeout — the result degrades to the empty list, and in every
case the call returns a plain pair whose first component is the result
list. -/
theorem scrape_never_throws (env : ScrapeEnv) (q : String) (mp : Option Nat) :
    scrape_google_maps { env with newPageOk := false } q mp = ([], 1) ∧
    scrape_google_maps { env with newPageOk := true, navResult := .timeout } q mp = ([], 1) ∧
    scrape_google_maps { env with newPageOk := true, navResult := .failure } q mp = ([], 1) ∧
    scrape_google_maps { env with
      newPageOk := true
      navResult := .ok
      isSinglePlace := true
      searchHtml := "" } q mp = ([], 1) ∧
    scrape_google_maps { env with
      newPageOk := true
      navResult := .ok
      isSinglePlace := false
      feedFound := false } q mp = ([], 1) ∧
    ∃ l, scrape_google_maps env q mp = (l, 1) := by
  refine ⟨by simp [scrape_google_maps], by simp [scrape_google_maps],
    by simp [scrape_google_maps], ?_, by simp [scrape_google_maps],
    (scrape_google_maps env q mp).1, scrape_shape env q mp⟩
  simp [scrape_google_maps, extract_place_data_empty]

/-- C2: on every execution path — success, navigation timeout, decode
failure, selector timeout, any other injected failure — the browser
session is released exactly once before the call returns. -/
theorem scrape_session_released_once (env : ScrapeEnv) (q : String) (mp : Option Nat) :
    (scrape_google_maps env q mp).2 = 1 :=
  scrape_snd_eq_one env q mp

theorem newLinks_nil_of_subset (seen : List String) :
    ∀ visible, (∀ l ∈ visible, l ∈ seen) → newLinks seen visible = [] := by
  intro visible
  induction visible with
  | nil => intro _; rfl
  | cons l ls ih =>
    intro h
    rw [newLinks, if_pos (h l (by simp))]
    exact ih (fun x hx => h x (by simp [hx]))

theorem scrollLoop_cap (env : ScrapeEnv) (m : Nat) :
    ∀ (fuel k a : Nat) (links : List String), links.length ≤ m →
      (scrollLoop env (some m) fuel k a links).1.length ≤ m := by
  intro fuel
  induction fuel with
  | zero =>
    intro k a links h
    simpa [scrollLoop] using h
  | succ f ih =>
    intro k a links h
    simp only [scrollLoop]
    set visible := if (env.rounds k).linksOk then (env.rounds k).links else [] with hvis
    set fresh := newLinks links visible with hfr
    set links2 := links ++ capTake (some m) links.length fresh with hl2eq
    have hl2 : links2.length ≤ m := by
      rw [hl2eq, List.length_append, capTake, List.length_take]
      omega
    split
    · simpa using hl2
    · split
      · simpa using hl2
      · split
        · split
          · simpa using hl2
          · simpa using ih (k + 1) (a + 1) _ hl2
        · simpa using ih (k + 1) 0 _ hl2

theorem scrollLoop_stops (env : ScrapeEnv) (maxP : Option Nat) :
    ∀ (fuel k a : Nat) (links : List String),
      (∀ j l, l ∈ (env.rounds j).links → l ∈ links) → a < 5 →
      (scrollLoop env maxP fuel k a links).2 ≤ 5 - a := by
  intro fuel
  induction fuel with
  | zero =>
    intro k a links _ _
    simp [scrollLoop]
  | succ f ih =>
    intro k a links hsub ha
    have hmem : ∀ l ∈ (if (env.rounds k).linksOk then (env.rounds k).links else []),
        l ∈ links := by
      intro l hl
      split at hl
      · exact hsub k l hl
      · simp at hl
    have hfresh : newLinks links
        (if (env.rounds k).linksOk then (env.rounds k).links else []) = [] :=
      newLinks_nil_of_subset links _ hmem
    simp only [scrollLoop, hfresh, capTake_nil, List.append_nil, List.isEmpty_nil]
    split
    · simp
      omega
    · split
      · simp
        omega
      · simp only [if_true]
        split
        · next hcond =>
          have hc5 : 5 ≤ a + 1 := by
            simpa [MAX_SCROLL_ATTEMPTS_WITHOUT_NEW_LINKS] using hcond
          simp
          omega
        · next hatt =>
          have ha5 : ¬5 ≤ a + 1 := by
            simpa [MAX_SCROLL_ATTEMPTS_WITHOUT_NEW_LINKS] using hatt
          have hrec := ih (k + 1) (a + 1) links hsub (by omega)
          simp only []
          omega

theorem scrape_len_le (env : ScrapeEnv) (q : String) (m : Nat) (hm : 0 < m) :
    (scrape_google_maps env q (some m)).1.length ≤ m := by
  unfold scrape_google_maps
  split
  · simp
  · split
    · simp
    · simp
    · split
      · split
        · simp
          omega
        · simp
      · split
        · simp
        · have h1 := scrollLoop_cap env m env.scrollFuel 0 0 [] (by simp)
          simp only []
          exact le_trans (List.length_filterMap_le _ _) h1

/-- C3: with a cap `m` the scroll loop never accumulates more than `m`
links (so the scrape's result list has length at most `m`), and when no
round ever shows a link outside the already collected set, the loop
terminates within the remaining no-progress budget (5 consecutive
no-progress iterations from a fresh counter), end-of-list marker or not. -/
theorem scroll_loop_bounds :
    (∀ (env : ScrapeEnv) (m fuel k a : Nat) (links : List String),
      links.length ≤ m → (scrollLoop env (some m) fuel k a links).1.length ≤ m) ∧
    (∀ (env : ScrapeEnv) (maxP : Option Nat) (fuel k a : Nat) (links : List String),
      (∀ j l, l ∈ (env.rounds j).links → l ∈ links) → a < 5 →
      (scrollLoop env maxP fuel k a links).2 ≤ 5 - a) ∧
    (∀ (env : ScrapeEnv) (q : String) (m : Nat), 0 < m →
      (scrape_google_maps env q (some m)).1.length ≤ m) :=
  ⟨fun env m fuel k a links h => scrollLoop_cap env m fuel k a links h,
   fun env maxP fuel k a links h1 h2 => scrollLoop_stops env maxP fuel k a links h1 h2,
   fun env q m hm => scrape_len_le env q m hm⟩

/-- A concrete environment: a listing page showing the same single link in
every round, no end marker. -/
def demoEnv : ScrapeEnv :=
  { newPageOk := true, navResult := .ok, isSinglePlace := false,
    finalUrl := "u", searchHtml := "", feedFound := true,
    rounds := fun _ => { links := ["a"], linksOk := true, endMarker := false },
    scrollFuel := 10, placeNavOk := fun _ => true, placeHtml := fun _ => "" }

/-- C3 witness: the bounds instantiated at a concrete environment. -/
theorem scroll_loop_bounds_witness :
    (scrollLoop demoEnv (some 3) 10 0 0 []).1.length ≤ 3 ∧
    (scrollLoop demoEnv none 10 0 1 ["a"]).2 ≤ 5 - 1 ∧
    (scrape_google_maps demoEnv "q" (some 3)).1.length ≤ 3 :=
  ⟨scroll_loop_bounds.1 demoEnv 3 10 0 0 [] (by decide),
   scroll_loop_bounds.2.1 demoEnv none 10 0 1 ["a"]
     (by
       intro j l hl
       simpa [demoEnv] using hl) (by decide),
   scroll_loop_bounds.2.2 demoEnv "q" 3 (by decide)⟩

/-! ## C6: phone search characterisation -/

theorem scanPairs_isSome : ∀ xs : List JVal, (scanPairs xs).isSome = pairExists xs
  | [] => rfl
  | [_] => rfl
  | x :: y :: t => by
    rw [scanPairs, pairExists]
    by_cases h : (isMarkerStr x && isDigitCand y) = true
    · rw [if_pos h, h]
      simp
    · rw [if_neg h, scanPairs_isSome (y :: t)]
      simp only [Bool.not_eq_true] at h
      rw [h]
      simp

theorem firstSome_isSome (g : JVal → Option String) :
    ∀ xs : List JVal, (firstSome g xs).isSome = xs.any (fun x => (g x).isSome) := by
  intro xs
  induction xs with
  | nil => simp [firstSome]
  | cons x t ih =>
    rw [firstSome]
    cases hg : g x with
    | some s => simp [hg]
    | none => simp [hg, ih]

theorem firstSomeKV_isSome (g : JVal → Option String) :
    ∀ kvs : List (String × JVal),
      (firstSomeKV g kvs).isSome = kvs.any (fun kv => (g kv.2).isSome) := by
  intro kvs
  induction kvs with
  | nil => simp [firstSomeKV]
  | cons kv t ih =>
    obtain ⟨k, v⟩ := kv
    rw [firstSomeKV]
    cases hg : g v with
    | some s => simp [hg]
    | none => simp [hg, ih]

theorem find_phone_isSome : ∀ (f : Nat) (n : JVal),
    (find_phone_recursively f n).isSome = hasMarkerPair f n := by
  intro f
  induction f with
  | zero => intro n; rfl
  | succ f ih =>
    intro n
    cases n with
    | arr xs =>
      rw [find_phone_recursively, hasMarkerPair]
      cases hs : scanPairs xs with
      | some s =>
        have hp : pairExists xs = true := by rw [← scanPairs_isSome, hs]; rfl
        simp [hp]
      | none =>
        have hp : pairExists xs = false := by rw [← scanPairs_isSome, hs]; rfl
        have hfun : (fun x => (find_phone_recursively f x).isSome) =
            fun x => hasMarkerPair f x := funext (fun x => ih x)
        simp [hp, firstSome_isSome, hfun]
    | obj kvs =>
      rw [find_phone_recursively, hasMarkerPair]
      have hfun : (fun kv : String × JVal => (find_phone_recursively f kv.2).isSome) =
          fun kv => hasMarkerPair f kv.2 := funext (fun kv => ih kv.2)
      rw [firstSomeKV_isSome, hfun]
    | null => rfl
    | bool b => rfl
    | num m => rfl
    | str s => rfl

theorem stripNonDigits_all (sy : String) :
    (stripNonDigits sy).data.all Char.isDigit = true := by
  rw [stripNonDigits]
  have hmem : ∀ c ∈ sy.data.filter Char.isDigit, c.isDigit = true := by
    intro c hc
    exact List.of_mem_filter hc
  exact List.all_eq_true.mpr hmem

theorem stripNonDigits_ne_empty (sy : String) (h : sy.data.any Char.isDigit = true) :
    stripNonDigits sy ≠ "" := by
  intro he
  have hd : (stripNonDigits sy).data = [] := by rw [he]
  rw [stripNonDigits] at hd
  have hd2 : sy.data.filter Char.isDigit = [] := hd
  obtain ⟨c, hc, hcd⟩ := List.any_eq_true.mp h
  have : c ∈ sy.data.filter Char.isDigit := List.mem_filter.mpr ⟨hc, hcd⟩
  rw [hd2] at this
  simp at this

theorem scanPairs_sound : ∀ (xs : List JVal) (s : String), scanPairs xs = some s →
    s ≠ "" ∧ s.data.all Char.isDigit = true
  | [], s, h => by simp [scanPairs] at h
  | [x], s, h => by simp [scanPairs] at h
  | x :: y :: t, s, h => by
    rw [scanPairs] at h
    by_cases hc : (isMarkerStr x && isDigitCand y) = true
    · rw [if_pos hc] at h
      have hy : isDigitCand y = true := by
        simp only [Bool.and_eq_true] at hc
        exact hc.2
      cases y with
      | str sy =>
        cases h
        exact ⟨stripNonDigits_ne_empty sy (by simpa [isDigitCand] using hy),
          stripNonDigits_all sy⟩
      | null => exact absurd hy (by simp [isDigitCand])
      | bool b => exact absurd hy (by simp [isDigitCand])
      | num n => exact absurd hy (by simp [isDigitCand])
      | arr l => exact absurd hy (by simp [isDigitCand])
      | obj l => exact absurd hy (by simp [isDigitCand])
    · rw [if_neg hc] at h
      exact scanPairs_sound (y :: t) s h

theorem firstSome_sound (g : JVal → Option String)
    (hg : ∀ x s, g x = some s → s ≠ "" ∧ s.data.all Char.isDigit = true) :
    ∀ (xs : List JVal) (s : String), firstSome g xs = some s →
      s ≠ "" ∧ s.data.all Char.isDigit = true := by
  intro xs
  induction xs with
  | nil => intro s h; simp [firstSome] at h
  | cons x t ih =>
    intro s h
    rw [firstSome] at h
    revert h
    cases hx : g x with
    | some s2 =>
      intro h
      cases h
      exact hg x s hx
    | none =>
      intro h
      exact ih s h

theorem firstSomeKV_sound (g : JVal → Option String)
    (hg : ∀ x s, g x = some s → s ≠ "" ∧ s.data.all Char.isDigit = true) :
    ∀ (kvs : List (String × JVal)) (s : String), firstSomeKV g kvs = some s →
      s ≠ "" ∧ s.data.all Char.isDigit = true := by
  intro kvs
  induction kvs with
  | nil => intro s h; simp [firstSomeKV] at h
  | cons kv t ih =>
    obtain ⟨k, v⟩ := kv
    intro s h
    rw [firstSomeKV] at h
    revert h
    cases hx : g v with
    | some s2 =>
      intro h
      cases h
      exact hg v s hx
    | none =>
      intro h
      exact ih s h

theorem find_phone_sound : ∀ (f : Nat) (n : JVal) (s : String),
    find_phone_recursively f n = some s →
      s ≠ "" ∧ s.data.all Char.isDigit = true := by
  intro f
  induction f with
  | zero => intro n s h; simp [find_phone_recursively] at h
  | succ f ih =>
    intro n s h
    cases n with
    | arr xs =>
      rw [find_phone_recursively] at h
      cases hs : scanPairs xs with
      | some s2 =>
        rw [hs] at h
        exact Option.some.inj h ▸ scanPairs_sound xs s2 hs
      | none =>
        rw [hs] at h
        exact firstSome_sound _ (fun x s2 hx => ih x s2 hx) xs s h
    | obj kvs =>
      rw [find_phone_recursively] at h
      exact firstSomeKV_sound _ (fun x s2 hx => ih x s2 hx) kvs s h
    | null => simp [find_phone_recursively] at h
    | bool b => simp [find_phone_recursively] at h
    | num m => simp [find_phone_recursively] at h
    | str t => simp [find_phone_recursively] at h

/-- The string value of the first depth-first marker/value match, taken
verbatim (the specification's words before stripping): scan the sequence
for the first adjacent pair of a marker string and a digit-bearing string
value and return that value. -/
def scanPairsCand : List JVal → Option String
  | x :: y :: t =>
    if isMarkerStr x && isDigitCand y then some (candText y)
    else scanPairsCand (y :: t)
  | _ => none

/-- The specification's first depth-first match: the raw candidate string
of the first reachable marker/value pair, within the depth bound, before
any stripping. -/
def firstCandidate : Nat → JVal → Option String
  | 0, _ => none
  | f + 1, node =>
    match node with
    | .arr xs =>
      match scanPairsCand xs with
      | some s => some s
      | none => firstSome (firstCandidate f) xs
    | .obj kvs => firstSomeKV (firstCandidate f) kvs
    | _ => none

theorem scanPairs_eq_cand : ∀ xs : List JVal,
    scanPairs xs = (scanPairsCand xs).map stripNonDigits
  | [] => rfl
  | [_] => rfl
  | x :: y :: t => by
    rw [scanPairs, scanPairsCand]
    by_cases h : (isMarkerStr x && isDigitCand y) = true
    · rw [if_pos h, if_pos h]
      rfl
    · rw [if_neg h, if_neg h]
      exact scanPairs_eq_cand (y :: t)

theorem firstSome_map_comm (g g' : JVal → Option String)
    (hgg : ∀ x, g x = (g' x).map stripNonDigits) :
    ∀ xs : List JVal, firstSome g xs = (firstSome g' xs).map stripNonDigits := by
  intro xs
  induction xs with
  | nil => rfl
  | cons x t ih =>
    rw [firstSome, firstSome, hgg x]
    cases g' x with
    | some s => rfl
    | none => exact ih

theorem firstSomeKV_map_comm (g g' : JVal → Option String)
    (hgg : ∀ x, g x = (g' x).map stripNonDigits) :
    ∀ kvs : List (String × JVal),
      firstSomeKV g kvs = (firstSomeKV g' kvs).map stripNonDigits := by
  intro kvs
  induction kvs with
  | nil => rfl
  | cons kv t ih =>
    obtain ⟨k, v⟩ := kv
    rw [firstSomeKV, firstSomeKV, hgg v]
    cases g' v with
    | some s => rfl
    | none => exact ih

theorem find_phone_eq_strip_firstCandidate : ∀ (f : Nat) (n : JVal),
    find_phone_recursively f n = (firstCandidate f n).map stripNonDigits := by
  intro f
  induction f with
  | zero => intro n; rfl
  | succ f ih =>
    intro n
    cases n with
    | arr xs =>
      rw [find_phone_recursively, firstCandidate, scanPairs_eq_cand]
      cases hc : scanPairsCand xs with
      | some c => rfl
      | none =>
        exact firstSome_map_comm _ _ ih xs
    | obj kvs =>
      rw [find_phone_recursively, firstCandidate]
      exact firstSomeKV_map_comm _ _ ih kvs
    | null => rfl
    | bool b => rfl
    | num m => rfl
    | str s => rfl

/-- C6: the recursive phone search yields a result exactly when a
marker/value pair with a digit-bearing string value is reachable within
the depth bound; the returned value is exactly the first depth-first
match's candidate string with every non-digit character stripped (a
leading plus included); and any returned value is non-empty and
digits-only. -/
theorem find_phone_characterisation (n : JVal) :
    ((get_phone_number n).isSome = hasMarkerPair (PHONE_SEARCH_DEPTH + 1) n) ∧
    (get_phone_number n =
      (firstCandidate (PHONE_SEARCH_DEPTH + 1) n).map stripNonDigits) ∧
    ∀ s, get_phone_number n = some s → s ≠ "" ∧ s.data.all Char.isDigit = true :=
  ⟨find_phone_isSome (PHONE_SEARCH_DEPTH + 1) n,
   find_phone_eq_strip_firstCandidate (PHONE_SEARCH_DEPTH + 1) n,
   fun s h => find_phone_sound (PHONE_SEARCH_DEPTH + 1) n s h⟩

/-- A node holding the call-icon marker next to a phone value. -/
def demoPhoneNode : JVal :=
  .arr [.str "https://icon/call_googblue", .str "+1 (555) 123-4567"]

/-- C6 witness: at the concrete marker/value node the search returns the
digit-stripped candidate, which is non-empty and digits-only. -/
theorem find_phone_characterisation_witness :
    "15551234567" ≠ "" ∧ ("15551234567" : String).data.all Char.isDigit = true :=
  (find_phone_characterisation demoPhoneNode).2.2 "15551234567" (by decide)

/-! ## C7: record emission characterisation -/

/-- Every field accessor over the decoded blob is absent. -/
def allAbsent (b : JVal) : Prop :=
  isNull (get_main_name b) = true ∧
  isNull (get_place_id b) = true ∧
  get_complete_address b = none ∧
  get_phone_number b = none ∧
  isNull (get_website b) = true ∧
  isNull (get_rating b) = true ∧
  isNull (get_reviews_count b) = true ∧
  isNull (get_categories b) = true ∧
  get_gps_coordinates b = none ∧
  isNull (get_thumbnail b) = true

theorem recordEmpty_iff (b : JVal) :
    recordEmpty (buildRecord b) = true ↔ allAbsent b := by
  simp only [recordEmpty, buildRecord, Bool.and_eq_true, Option.isNone_iff_eq_none,
    allAbsent]
  tauto

theorem extract_aux (html : String) (B : JVal) (hb : decodedBlob html = B)
    (hnn : isNull B = false) :
    (extract_place_data html = none ↔ allAbsent (decodedBlob html)) ∧
    ∀ r, extract_place_data html = some r → r = buildRecord (decodedBlob html) := by
  have hext : extract_place_data html =
      if recordEmpty (buildRecord B) then none else some (buildRecord B) := by
    unfold extract_place_data
    rw [hb]
    cases B with
    | null => simp [isNull] at hnn
    | bool b => rfl
    | num n => rfl
    | str s => rfl
    | arr xs => rfl
    | obj kvs => rfl
  rw [hext, hb]
  by_cases hre : recordEmpty (buildRecord B) = true
  · rw [if_pos hre]
    exact ⟨⟨fun _ => (recordEmpty_iff B).mp hre, fun _ => rfl⟩,
      fun r hr => by simp at hr⟩
  · rw [if_neg hre]
    refine ⟨⟨fun habs => by simp at habs,
      fun hconj => absurd ((recordEmpty_iff B).mpr hconj) hre⟩, ?_⟩
    intro r hr
    exact (Option.some.inj hr).symm

/-- C7: `extract_place_data` returns absent exactly when every individual
field accessor over the decoded blob is absent, and an emitted record holds
exactly the accessors' results. -/
theorem extract_place_data_absent_iff (html : String) :
    (extract_place_data html = none ↔ allAbsent (decodedBlob html)) ∧
    ∀ r, extract_place_data html = some r → r = buildRecord (decodedBlob html) := by
  cases hb : decodedBlob html with
  | null =>
    constructor
    · simp only [extract_place_data, hb]
      constructor
      · intro _
        exact ⟨rfl, rfl, rfl, rfl, rfl, rfl, rfl, rfl, rfl, rfl⟩
      · intro _
        trivial
    · intro r hr
      simp only [extract_place_data, hb] at hr
      simp at hr
  | bool b =>
    rw [← hb]
    exact extract_aux html (.bool b) hb rfl
  | num n =>
    rw [← hb]
    exact extract_aux html (.num n) hb rfl
  | str s =>
    rw [← hb]
    exact extract_aux html (.str s) hb rfl
  | arr xs =>
    rw [← hb]
    exact extract_aux html (.arr xs) hb rfl
  | obj kvs =>
    rw [← hb]
    exact extract_aux html (.obj kvs) hb rfl

/-- A blob carrying only a name, at offset 11. -/
def demoBlob : JVal :=
  .arr [.null, .null, .null, .null, .null, .null, .null, .null, .null, .null,
    .null, .str "N"]

/-- A full page embedding `demoBlob` between the bootstrap markers. -/
def demoHtml : String :=
  String.mk (startMarker ++ (encodeDirect demoBlob).data ++ endMarker)

set_option maxRecDepth 40000 in
/-- C7 witness: on the concrete page the emitted record is exactly the
accessors' output — the name present, every other field absent. -/
theorem extract_place_data_absent_iff_witness :
    (⟨.str "N", .null, none, none, .null, .null, .null, .null, none, .null⟩ :
        PlaceRecord) = buildRecord (decodedBlob demoHtml) :=
  (extract_place_data_absent_iff demoHtml).2
    ⟨.str "N", .null, none, none, .null, .null, .null, .null, none, .null⟩ (by rfl)

end GMaps
